import Mathlib

/-!
Verification of the branch-thinking MCP server (`src/index.ts` and its
persistence manager) against its natural-language specification.

The development shallowly embeds the TypeScript source:
* JavaScript `Date` values are epoch milliseconds (`Nat`); the builtin
  `Date.prototype.toISOString` / `new Date(isoString)` pair is modelled by
  `toISOString` / `parseISOString` below, following ECMA-262 §21.4.1.
* JSON payloads are modelled structurally (a record per payload shape)
  rather than as raw text.
* JavaScript numbers are modelled as `Rat`.
* The event loop is modelled explicitly where it matters (autosave
  interleavings), and fallible operations return `Except`.

`branchManager.ts` and `types.ts` are not part of the provided sources;
definitions taken from the specification instead of the code carry a doc
comment starting with "Modelled from the spec:".
-/

/-! ## ECMA-262 UTC date arithmetic -/

/-- Proleptic Gregorian leap-year test (ECMA-262 InLeapYear). -/
abbrev isLeap (y : Nat) : Prop := y % 4 = 0 ∧ (y % 100 ≠ 0 ∨ y % 400 = 0)

def daysInYear (y : Nat) : Nat := if isLeap y then 366 else 365

/-- Days in month `m` (1-12) of year `y`. -/
def daysInMonth (y m : Nat) : Nat :=
  if m = 2 then (if isLeap y then 29 else 28)
  else if m = 4 ∨ m = 6 ∨ m = 9 ∨ m = 11 then 30 else 31

/-- ECMA-262 DayFromYear, for years ≥ 1970. -/
def dayFromYear (y : Nat) : Nat :=
  365 * (y - 1970) + (y - 1969) / 4 - (y - 1901) / 100 + (y - 1601) / 400

/-- Split a day count (days since 1970-01-01) into (year, day-of-year).
ECMA-262 YearFromTime is specified declaratively; this computes that year. -/
def yearSplit : Nat → Nat → Nat → Nat × Nat
  | 0, y, r => (y, r)
  | fuel + 1, y, r =>
    if r < daysInYear y then (y, r) else yearSplit fuel (y + 1) (r - daysInYear y)

/-- Split a day-of-year into (month, day-of-month). -/
def monthSplit (y : Nat) : Nat → Nat → Nat → Nat × Nat
  | 0, m, r => (m, r + 1)
  | fuel + 1, m, r =>
    if r < daysInMonth y m then (m, r + 1) else monthSplit y fuel (m + 1) (r - daysInMonth y m)

/-- Sum of `daysInMonth` over `fuel` months starting at month `m`. -/
def sumMonths (y : Nat) : Nat → Nat → Nat
  | _, 0 => 0
  | m, fuel + 1 => daysInMonth y m + sumMonths y (m + 1) fuel

set_option maxHeartbeats 4000000 in
theorem dayFromYear_succ (y : Nat) (h : 1970 ≤ y) :
    dayFromYear (y + 1) = dayFromYear y + daysInYear y := by
  unfold dayFromYear daysInYear
  by_cases hL : isLeap y
  · rw [if_pos hL]
    omega
  · rw [if_neg hL]
    omega

theorem dayFromYear_mono {y y' : Nat} (h : 1970 ≤ y) (h2 : y ≤ y') :
    dayFromYear y ≤ dayFromYear y' := by
  induction y' with
  | zero => omega
  | succ n ih =>
    rcases Nat.eq_or_lt_of_le h2 with heq | hlt
    · rw [heq]
    · have hyn : y ≤ n := by omega
      have := ih hyn
      rw [dayFromYear_succ n (by omega)]
      omega

set_option maxRecDepth 4000 in
theorem sumMonths_twelve (y : Nat) : sumMonths y 1 12 = daysInYear y := by
  have h2 : sumMonths y 1 12 = 31 + ((if isLeap y then 29 else 28) + 306) := rfl
  rw [h2]
  unfold daysInYear
  by_cases h : isLeap y
  · rw [if_pos h, if_pos h]
  · rw [if_neg h, if_neg h]

theorem yearSplit_spec (fuel : Nat) : ∀ y r, 1970 ≤ y → r < 365 * fuel →
    dayFromYear (yearSplit fuel y r).1 + (yearSplit fuel y r).2 = dayFromYear y + r ∧
    (yearSplit fuel y r).2 < daysInYear (yearSplit fuel y r).1 ∧
    y ≤ (yearSplit fuel y r).1 := by
  induction fuel with
  | zero => intro y r _ h; exact absurd h (by omega)
  | succ n ih =>
    intro y r hy hr
    unfold yearSplit
    by_cases h : r < daysInYear y
    · simp [h]
    · simp only [h, if_false]
      have h365 : 365 ≤ daysInYear y := by unfold daysInYear; split <;> omega
      have := ih (y + 1) (r - daysInYear y) (by omega) (by omega)
      rcases this with ⟨h1, h2, h3⟩
      refine ⟨?_, h2, by omega⟩
      rw [h1, dayFromYear_succ y hy]
      omega

theorem monthSplit_spec (y : Nat) (fuel : Nat) : ∀ m r, r < sumMonths y m fuel →
    sumMonths y m ((monthSplit y fuel m r).1 - m) + ((monthSplit y fuel m r).2 - 1) = r ∧
    (monthSplit y fuel m r).2 - 1 < daysInMonth y (monthSplit y fuel m r).1 ∧
    1 ≤ (monthSplit y fuel m r).2 ∧
    m ≤ (monthSplit y fuel m r).1 ∧ (monthSplit y fuel m r).1 < m + fuel := by
  induction fuel with
  | zero => intro m r h; exact absurd h (by simp [sumMonths])
  | succ n ih =>
    intro m r hr
    unfold monthSplit
    by_cases h : r < daysInMonth y m
    · simp only [h, if_true]
      refine ⟨?_, by simpa using h, by omega, by omega, by omega⟩
      simp [sumMonths]
    · simp only [h, if_false]
      unfold sumMonths at hr
      have := ih (m + 1) (r - daysInMonth y m) (by omega)
      rcases this with ⟨h1, h2, h3, h4, h5⟩
      refine ⟨?_, h2, h3, by omega, by omega⟩
      have hm : (monthSplit y n (m + 1) (r - daysInMonth y m)).1 - m =
          ((monthSplit y n (m + 1) (r - daysInMonth y m)).1 - (m + 1)) + 1 := by omega
      rw [hm]
      simp only [sumMonths]
      omega

/-- Year, month and day corresponding to a day count since the epoch. -/
def civilFromDay (z : Nat) : Nat × Nat × Nat :=
  let yr := yearSplit 8100 1970 z
  let md := monthSplit yr.1 12 1 yr.2
  (yr.1, md.1, md.2)

/-- ECMA-262 MakeDay for dates ≥ 1970: day count from (year, month, day). -/
def dayFromCivil (y m d : Nat) : Nat := dayFromYear y + sumMonths y 1 (m - 1) + (d - 1)

theorem daysInMonth_le (y m : Nat) : daysInMonth y m ≤ 31 := by
  unfold daysInMonth
  split
  · split <;> omega
  · split <;> omega

theorem civilFromDay_spec (z : Nat) (h : z ≤ 2932896) :
    dayFromCivil (civilFromDay z).1 (civilFromDay z).2.1 (civilFromDay z).2.2 = z ∧
    1970 ≤ (civilFromDay z).1 ∧ (civilFromDay z).1 ≤ 9999 ∧
    1 ≤ (civilFromDay z).2.1 ∧ (civilFromDay z).2.1 ≤ 12 ∧
    1 ≤ (civilFromDay z).2.2 ∧ (civilFromDay z).2.2 ≤ 31 := by
  have hy := yearSplit_spec 8100 1970 z (le_refl _) (by omega)
  rcases hy with ⟨hy1, hy2, hy3⟩
  have h1970 : dayFromYear 1970 = 0 := by decide
  have hms := monthSplit_spec (yearSplit 8100 1970 z).1 12 1 (yearSplit 8100 1970 z).2
    (by rw [sumMonths_twelve]; exact hy2)
  rcases hms with ⟨hm1, hm2, hm3, hm4, hm5⟩
  have hdm := daysInMonth_le (yearSplit 8100 1970 z).1
    (monthSplit (yearSplit 8100 1970 z).1 12 1 (yearSplit 8100 1970 z).2).1
  have hymax : (yearSplit 8100 1970 z).1 ≤ 9999 := by
    by_contra hc
    have h10 : 10000 ≤ (yearSplit 8100 1970 z).1 := by omega
    have := dayFromYear_mono (by omega : (1970 : Nat) ≤ 10000) h10
    have h10000 : dayFromYear 10000 = 2932897 := by decide
    omega
  unfold civilFromDay dayFromCivil
  simp only
  refine ⟨?_, by omega, hymax, by omega, by omega, by omega, by omega⟩
  omega

def digitChar (n : Nat) : Char :=
  match n with
  | 0 => '0' | 1 => '1' | 2 => '2' | 3 => '3' | 4 => '4'
  | 5 => '5' | 6 => '6' | 7 => '7' | 8 => '8' | 9 => '9'
  | _ => '0'

def digitVal (c : Char) : Option Nat :=
  if '0' ≤ c ∧ c ≤ '9' then some (c.toNat - 48) else none

theorem digitVal_digitChar (n : Nat) (h : n < 10) : digitVal (digitChar n) = some n := by
  interval_cases n <;> decide

def pad2 (n : Nat) : List Char := [digitChar (n / 10), digitChar (n % 10)]

def pad3 (n : Nat) : List Char := [digitChar (n / 100), digitChar (n / 10 % 10), digitChar (n % 10)]

def pad4 (n : Nat) : List Char :=
  [digitChar (n / 1000), digitChar (n / 100 % 10), digitChar (n / 10 % 10), digitChar (n % 10)]

def dec2 (a b : Char) : Option Nat := do
  let x ← digitVal a
  let y ← digitVal b
  pure (10 * x + y)

def dec3 (a b c : Char) : Option Nat := do
  let x ← digitVal a
  let y ← digitVal b
  let z ← digitVal c
  pure (100 * x + 10 * y + z)

def dec4 (a b c d : Char) : Option Nat := do
  let x ← digitVal a
  let y ← digitVal b
  let z ← digitVal c
  let w ← digitVal d
  pure (1000 * x + 100 * y + 10 * z + w)

theorem dec2_pad2 (n : Nat) (h : n < 100) :
    dec2 (digitChar (n / 10)) (digitChar (n % 10)) = some n := by
  unfold dec2
  rw [digitVal_digitChar _ (by omega), digitVal_digitChar _ (by omega)]
  exact congrArg some (by omega)

theorem dec3_pad3 (n : Nat) (h : n < 1000) :
    dec3 (digitChar (n / 100)) (digitChar (n / 10 % 10)) (digitChar (n % 10)) = some n := by
  unfold dec3
  rw [digitVal_digitChar _ (by omega), digitVal_digitChar _ (by omega),
    digitVal_digitChar _ (by omega)]
  exact congrArg some (by omega)

theorem dec4_pad4 (n : Nat) (h : n < 10000) :
    dec4 (digitChar (n / 1000)) (digitChar (n / 100 % 10)) (digitChar (n / 10 % 10))
      (digitChar (n % 10)) = some n := by
  unfold dec4
  rw [digitVal_digitChar _ (by omega), digitVal_digitChar _ (by omega),
    digitVal_digitChar _ (by omega), digitVal_digitChar _ (by omega)]
  exact congrArg some (by omega)

/-- Model of `Date.prototype.toISOString` on a non-negative epoch-millisecond
value below the year-10000 boundary: "YYYY-MM-DDTHH:mm:ss.sssZ". -/
def toISOString (n : Nat) : String :=
  let z := n / 86400000
  let q := n % 86400000
  let c := civilFromDay z
  String.mk (pad4 c.1 ++ '-' :: pad2 c.2.1 ++ '-' :: pad2 c.2.2 ++
    'T' :: pad2 (q / 3600000) ++ ':' :: pad2 (q / 60000 % 60) ++
    ':' :: pad2 (q / 1000 % 60) ++ '.' :: pad3 (q % 1000) ++ ['Z'])

/-- Model of `new Date(s)` on an ISO-8601 UTC date-time string
(ECMA-262 Date Time String Format together with MakeDay and MakeTime);
returns the epoch-millisecond value, or `none` for a string this grammar
rejects (an invalid Date). -/
def parseISOString (s : String) : Option Nat :=
  match s.data with
  | [y1, y2, y3, y4, '-', o1, o2, '-', d1, d2, 'T', h1, h2, ':',
     i1, i2, ':', s1, s2, '.', f1, f2, f3, 'Z'] => do
    let y ← dec4 y1 y2 y3 y4
    let mo ← dec2 o1 o2
    let d ← dec2 d1 d2
    let hh ← dec2 h1 h2
    let mi ← dec2 i1 i2
    let ss ← dec2 s1 s2
    let ms ← dec3 f1 f2 f3
    if 1 ≤ mo ∧ mo ≤ 12 ∧ 1 ≤ d ∧ d ≤ 31 ∧ hh ≤ 23 ∧ mi ≤ 59 ∧ ss ≤ 59 then
      some (dayFromCivil y mo d * 86400000 + hh * 3600000 + mi * 60000 + ss * 1000 + ms)
    else none
  | _ => none

/-- Epoch milliseconds of 10000-01-01T00:00:00Z, the bound up to which
`toISOString` keeps the four-digit year format. -/
def isoBound : Nat := 253402300800000

set_option maxHeartbeats 1000000 in
/-- Rehydrating a serialized timestamp recovers the original value. -/
theorem parseISOString_toISOString (n : Nat) (h : n < isoBound) :
    parseISOString (toISOString n) = some n := by
  have hb : n < 253402300800000 := h
  have hz : n / 86400000 ≤ 2932896 := by omega
  have hc := civilFromDay_spec (n / 86400000) hz
  rcases hc with ⟨hc1, hc2, hc3, hc4, hc5, hc6, hc7⟩
  unfold toISOString
  simp only [pad4, pad2, pad3]
  show parseISOString (String.mk [_, _, _, _, '-', _, _, '-', _, _, 'T', _, _, ':',
    _, _, ':', _, _, '.', _, _, _, 'Z']) = some n
  unfold parseISOString
  simp only
  rw [dec4_pad4 _ (by omega), dec2_pad2 _ (by omega), dec2_pad2 _ (by omega),
    dec2_pad2 _ (by omega), dec2_pad2 _ (by omega), dec2_pad2 _ (by omega),
    dec3_pad3 _ (by omega)]
  show (if 1 ≤ (civilFromDay (n / 86400000)).2.1 ∧ (civilFromDay (n / 86400000)).2.1 ≤ 12 ∧
      1 ≤ (civilFromDay (n / 86400000)).2.2 ∧ (civilFromDay (n / 86400000)).2.2 ≤ 31 ∧
      n % 86400000 / 3600000 ≤ 23 ∧ n % 86400000 / 60000 % 60 ≤ 59 ∧
      n % 86400000 / 1000 % 60 ≤ 59 then
      some (dayFromCivil (civilFromDay (n / 86400000)).1 (civilFromDay (n / 86400000)).2.1
          (civilFromDay (n / 86400000)).2.2 * 86400000 +
        n % 86400000 / 3600000 * 3600000 + n % 86400000 / 60000 % 60 * 60000 +
        n % 86400000 / 1000 % 60 * 1000 + n % 86400000 % 1000)
    else none) = some n
  rw [if_pos (by omega)]
  exact congrArg some (by omega)

/-! ## Core data model (`types.ts` is not in the provided sources) -/

/-- Modelled from the spec: the branch states (§4.2). -/
inductive BranchState where
  | active
  | suspended
  | deadEnd
  | completed
deriving DecidableEq, Repr

/-- Modelled from the spec: the string each state serializes to. -/
def stateLabel : BranchState → String
  | .active => "active"
  | .suspended => "suspended"
  | .deadEnd => "dead_end"
  | .completed => "completed"

/-- Modelled from the spec: a directed cross-reference declaration (§3). -/
structure CrossReference where
  toBranch : String
  type : String
  reason : String
  strength : Rat
deriving DecidableEq, Repr

/-- Modelled from the spec: a derived insight record (§3). -/
structure Insight where
  id : String
  sourceThoughtId : String
  content : String
  confidence : Rat
deriving DecidableEq, Repr

/-- Modelled from the spec: a thought record (§3); its `timestamp` is a JS
`Date`, modelled as epoch milliseconds. -/
structure Thought where
  id : String
  branchId : String
  parentBranchId : Option String
  content : String
  type : String
  confidence : Rat
  keyPoints : List String
  relatedInsights : List String
  crossRefs : List CrossReference
  timestamp : Nat
deriving DecidableEq, Repr

/-- Modelled from the spec: a branch (§3). -/
structure ThoughtBranch where
  id : String
  parentBranchId : Option String
  thoughts : List Thought
  insights : List Insight
  crossRefs : List CrossReference
  state : BranchState
  priority : Rat
deriving DecidableEq, Repr

/-! ## On-disk representation (the value level of JSON.stringify/JSON.parse) -/

/-- A thought as `JSON.stringify` lays it out: the `Date` has become an
ISO-8601 string. -/
structure SerializedThought where
  id : String
  branchId : String
  parentBranchId : Option String
  content : String
  type : String
  confidence : Rat
  keyPoints : List String
  relatedInsights : List String
  crossRefs : List CrossReference
  timestamp : String
deriving DecidableEq, Repr

/-- A branch as stored in its `.json` file. -/
structure SerializedBranch where
  id : String
  parentBranchId : Option String
  thoughts : List SerializedThought
  insights : List Insight
  crossRefs : List CrossReference
  state : BranchState
  priority : Rat
deriving DecidableEq, Repr

def serializeThought (t : Thought) : SerializedThought :=
  { id := t.id, branchId := t.branchId, parentBranchId := t.parentBranchId,
    content := t.content, type := t.type, confidence := t.confidence,
    keyPoints := t.keyPoints, relatedInsights := t.relatedInsights,
    crossRefs := t.crossRefs, timestamp := toISOString t.timestamp }

def serializeBranch (b : ThoughtBranch) : SerializedBranch :=
  { id := b.id, parentBranchId := b.parentBranchId,
    thoughts := b.thoughts.map serializeThought, insights := b.insights,
    crossRefs := b.crossRefs, state := b.state, priority := b.priority }

/-- `loadState`'s per-thought conversion `t.timestamp = new Date(t.timestamp)`;
a string the date grammar rejects yields an Invalid Date, modelled as 0. -/
def rehydrateThought (s : SerializedThought) : Thought :=
  { id := s.id, branchId := s.branchId, parentBranchId := s.parentBranchId,
    content := s.content, type := s.type, confidence := s.confidence,
    keyPoints := s.keyPoints, relatedInsights := s.relatedInsights,
    crossRefs := s.crossRefs, timestamp := (parseISOString s.timestamp).getD 0 }

def rehydrateBranch (s : SerializedBranch) : ThoughtBranch :=
  { id := s.id, parentBranchId := s.parentBranchId,
    thoughts := s.thoughts.map rehydrateThought, insights := s.insights,
    crossRefs := s.crossRefs, state := s.state, priority := s.priority }

theorem rehydrateThought_serializeThought (t : Thought) (h : t.timestamp < isoBound) :
    rehydrateThought (serializeThought t) = t := by
  unfold rehydrateThought serializeThought
  rw [parseISOString_toISOString t.timestamp h]
  rfl

theorem map_rehydrate_serialize (l : List Thought)
    (h : ∀ t ∈ l, t.timestamp < isoBound) :
    l.map (rehydrateThought ∘ serializeThought) = l := by
  induction l with
  | nil => rfl
  | cons t rest ih =>
    simp only [List.map_cons, Function.comp_apply]
    rw [rehydrateThought_serializeThought t (h t (by simp)),
      ih (fun t' ht' => h t' (by simp [ht']))]

theorem rehydrateBranch_serializeBranch (b : ThoughtBranch)
    (h : ∀ t ∈ b.thoughts, t.timestamp < isoBound) :
    rehydrateBranch (serializeBranch b) = b := by
  unfold rehydrateBranch serializeBranch
  simp only [List.map_map]
  rw [map_rehydrate_serialize b.thoughts h]

/-! ## Branch manager (`branchManager.ts` is not in the provided sources) -/

/-- Modelled from the spec: the Branch Manager's owned state (§2, §3): the
insertion-ordered map from branch id to branch, the process-wide active
branch pointer, and counters backing generated ids. -/
structure ManagerState where
  branches : List (String × ThoughtBranch)
  activeBranchId : Option String
  branchCounter : Nat
  thoughtCounter : Nat
deriving DecidableEq, Repr

def emptyManager : ManagerState := ⟨[], none, 0, 0⟩

/-- Modelled from the spec: `getBranch(id)` (§4.1), a pure map lookup. -/
def getBranch (st : ManagerState) (id : String) : Option ThoughtBranch :=
  (st.branches.find? (fun e => e.1 == id)).map (·.2)

/-- Modelled from the spec: `getAllBranches()` (§4.1), the branches in
creation order. -/
def getAllBranches (st : ManagerState) : List ThoughtBranch := st.branches.map (·.2)

/-- Modelled from the spec: `getActiveBranch()` (§6). -/
def getActiveBranch (st : ManagerState) : Option ThoughtBranch :=
  st.activeBranchId.bind (getBranch st)

/-- Well-formedness of the manager map: keys are the branches' own ids and
ids are unique (spec §3 invariants). -/
def ManagerWF (st : ManagerState) : Prop :=
  (st.branches.map (·.1)).Nodup ∧ ∀ e ∈ st.branches, e.1 = e.2.id

/-- Rewrite one branch's state in place. -/
def setBranchState (st : ManagerState) (id : String) (f : BranchState → BranchState) :
    ManagerState :=
  { st with branches := st.branches.map (fun e =>
      if e.1 = id then (e.1, { e.2 with state := f e.2.state }) else e) }

/-- Modelled from the spec: `setActiveBranch(id)` (§4.1): fails on an unknown
id; the previous active branch (if ACTIVE) suspends; the target (if
SUSPENDED) activates; the pointer moves. -/
def setActiveBranch (st : ManagerState) (id : String) : Except String ManagerState :=
  match getBranch st id with
  | none => .error ("Branch " ++ id ++ " not found")
  | some _ =>
    let st1 :=
      match st.activeBranchId with
      | some prev =>
        if prev ≠ id then
          setBranchState st prev (fun s => if s = BranchState.active then BranchState.suspended else s)
        else st
      | none => st
    let st2 := setBranchState st1 id (fun s => if s = BranchState.suspended then BranchState.active else s)
    .ok { st2 with activeBranchId := some id }

/-- Clamp a number into [0,1] (spec §3, §4.1). -/
def clamp01 (x : Rat) : Rat := max 0 (min 1 x)

/-- Modelled from the spec: content-hash insight ids with case normalization
(§4.3, §9); an injective hash is modelled by the normalized text itself. -/
def insightId (content : String) : String := String.mk (content.data.map Char.toLower)

/-- Modelled from the spec: the insight extractor (§4.3): one insight per key
point, deduplicated by content-hash id, first recorded confidence wins. -/
def extractInsights (existing : List Insight) (t : Thought) : List Insight :=
  t.keyPoints.foldl (fun acc kp =>
    if (existing ++ acc).any (fun i => i.id == insightId kp) then acc
    else acc ++ [{ id := insightId kp, sourceThoughtId := t.id, content := kp,
                   confidence := t.confidence }]) []

/-- Modelled from the spec: the tunable pieces of the core. The priority
formula (§4.4) uses configuration weights and an exponential recency factor,
and the state heuristics (§4.2) use threshold constants documented as
tunables; no claim depends on their values, so the model takes both as
parameters. -/
structure CoreConfig where
  computePriority : ThoughtBranch → Rat
  stepState : ThoughtBranch → BranchState

/-- Modelled from the spec: the input record of `addThought` (§6). -/
structure ThoughtInput where
  content : Option String
  branchId : Option String
  parentBranchId : Option String
  type : Option String
  confidence : Option Rat
  keyPoints : List String
  relatedInsights : List String
  crossRefs : List CrossReference
deriving DecidableEq, Repr

/-- Build the immutable thought record (spec §3, §4.1); absent confidence
defaults to 1/2 and present confidence is clamped into [0,1]. -/
def mkThought (now : Nat) (st : ManagerState) (inp : ThoughtInput)
    (c ty targetId : String) : Thought :=
  { id := "thought-" ++ toString st.thoughtCounter
    branchId := targetId
    parentBranchId := inp.parentBranchId
    content := c
    type := ty
    confidence := clamp01 (inp.confidence.getD (mkRat 1 2))
    keyPoints := inp.keyPoints
    relatedInsights := inp.relatedInsights
    crossRefs := inp.crossRefs
    timestamp := now }

/-- Suspend the previously active branch if it is a different branch still in
state ACTIVE (spec §4.1; terminal states are left unchanged). -/
def suspendPrev (st : ManagerState) (targetId : String) : ManagerState :=
  match st.activeBranchId with
  | some prev =>
    if prev ≠ targetId then
      setBranchState st prev (fun s => if s = BranchState.active then BranchState.suspended else s)
    else st
  | none => st

/-- Modelled from the spec: the success path of `addThought` (§4.1): append
the thought, merge extracted insights, append declared cross-references,
evaluate the state machine (a SUSPENDED branch wakes on append, otherwise the
configured heuristic decides), recompute priority, and focus the branch. -/
def commitThought (cfg : CoreConfig) (st : ManagerState) (base : ThoughtBranch)
    (t : Thought) (isNew : Bool) : ManagerState :=
  let b1 := { base with
    thoughts := base.thoughts ++ [t]
    insights := base.insights ++ extractInsights base.insights t
    crossRefs := base.crossRefs ++ t.crossRefs }
  let b2 := { b1 with state := if b1.state = BranchState.suspended then BranchState.active else cfg.stepState b1 }
  let b3 := { b2 with priority := clamp01 (cfg.computePriority b2) }
  let st1 :=
    if isNew then { st with branches := st.branches ++ [(base.id, b3)] }
    else { st with branches := st.branches.map (fun e =>
      if e.1 = base.id then (e.1, b3) else e) }
  let st2 := suspendPrev st1 base.id
  { st2 with activeBranchId := some base.id }

/-- Modelled from the spec: `addThought` (§4.1): validation, branch
resolution, cross-reference validation, and the atomic commit; every failure
mode surfaces as an `Except.error` (a thrown error at the transport
boundary). -/
def addThought (cfg : CoreConfig) (now : Nat) (st : ManagerState) (inp : ThoughtInput) :
    Except String (Thought × ManagerState) :=
  match inp.content, inp.type with
  | some c, some ty =>
    if c = "" ∨ ty = "" then .error "content and type are required"
    else
      let targetId := inp.branchId.getD ("branch-" ++ toString st.branchCounter)
      if ∀ cr ∈ inp.crossRefs, (getBranch st cr.toBranch).isSome then
        match getBranch st targetId with
        | some b =>
          let t := mkThought now st inp c ty targetId
          .ok (t, { commitThought cfg st b t false with
                    thoughtCounter := st.thoughtCounter + 1,
                    branchCounter := st.branchCounter + (if inp.branchId.isNone then 1 else 0) })
        | none =>
          if match inp.parentBranchId with
             | some pid => (getBranch st pid).isSome
             | none => true then
            let t := mkThought now st inp c ty targetId
            let newb : ThoughtBranch :=
              { id := targetId, parentBranchId := inp.parentBranchId, thoughts := [],
                insights := [], crossRefs := [], state := .active, priority := mkRat 1 2 }
            .ok (t, { commitThought cfg st newb t true with
                      thoughtCounter := st.thoughtCounter + 1,
                      branchCounter := st.branchCounter + (if inp.branchId.isNone then 1 else 0) })
          else .error "parent branch not found"
      else .error "cross-reference target branch not found"
  | _, _ => .error "content and type are required"

/-- Modelled from the spec: the history renderer behind `getBranchHistory`
(§4.1): every thought in insertion order; an empty branch renders a defined
empty-state message. -/
def renderHistory (b : ThoughtBranch) : String :=
  if b.thoughts.isEmpty then "Branch " ++ b.id ++ " has no thoughts yet"
  else "History of branch " ++ b.id ++ ":\n" ++
    String.intercalate "\n" (b.thoughts.map (fun t => "[" ++ t.type ++ "] " ++ t.content))

/-- Modelled from the spec: `getBranchHistory(id)` (§4.1), failing on an
unknown branch id. -/
def getBranchHistory (st : ManagerState) (id : String) : Except String String :=
  match getBranch st id with
  | none => .error ("Branch " ++ id ++ " not found")
  | some b => .ok (renderHistory b)

/-- Modelled from the spec: `formatBranchStatus` (§4.1), a pure rendering. -/
def formatBranchStatus (b : ThoughtBranch) : String :=
  "Branch " ++ b.id ++ " [" ++ stateLabel b.state ++ "] thoughts: " ++
    toString b.thoughts.length ++ " insights: " ++ toString b.insights.length ++
    " crossRefs: " ++ toString b.crossRefs.length

/-- Modelled from the spec: `reconstructBranch` (§4.1): register a previously
serialized branch verbatim; on an id collision the branch with the larger
thought count wins, ties keep the existing one. -/
def reconstructBranch (st : ManagerState) (b : ThoughtBranch) : ManagerState :=
  match getBranch st b.id with
  | none => { st with branches := st.branches ++ [(b.id, b)] }
  | some existing =>
    if existing.thoughts.length < b.thoughts.length then
      { st with branches := st.branches.map (fun e => if e.1 = b.id then (b.id, b) else e) }
    else st

/-! ## Persistence manager (`ChoffPersistenceManager`, from the source) -/

/-- One entry of `index.json` as `saveState` builds it (source lines
332-338); `lastUpdated` is a `Date`, serialized by `JSON.stringify` to an
ISO-8601 string. -/
structure IndexEntry where
  id : String
  state : BranchState
  priority : Rat
  thoughtCount : Nat
  lastUpdated : String
deriving DecidableEq, Repr

/-- Parsed content of a file in the storage directory. -/
inductive FileContent where
  | branchFile (b : SerializedBranch)
  | indexFile (entries : List IndexEntry)
deriving DecidableEq, Repr

/-- The index entry `saveState` derives for one branch: thought count and the
last thought's timestamp, with `new Date()` (the time of the save) as
fallback for a branch with no thoughts. -/
def indexEntryOf (now : Nat) (b : ThoughtBranch) : IndexEntry :=
  { id := b.id, state := b.state, priority := b.priority,
    thoughtCount := b.thoughts.length,
    lastUpdated := match b.thoughts.getLast? with
      | some t => toISOString t.timestamp
      | none => toISOString now }

/-- The sequence of file writes `saveState` performs: one `<branch.id>.json`
file per branch holding the full serialized branch, then `index.json`
(source lines 321-345). -/
def saveStateWrites (st : ManagerState) (now : Nat) : List (String × FileContent) :=
  let branches := getAllBranches st
  branches.map (fun b => (b.id ++ ".json", FileContent.branchFile (serializeBranch b)))
    ++ [("index.json", FileContent.indexFile (branches.map (indexEntryOf now)))]

/-- Apply one write to a directory listing: overwrite the file if the name
exists, create it otherwise. -/
def applyWrite (fs : List (String × FileContent)) (w : String × FileContent) :
    List (String × FileContent) :=
  if fs.any (fun e => e.1 == w.1) then
    fs.map (fun e => if e.1 = w.1 then (e.1, w.2) else e)
  else fs ++ [w]

/-- The directory contents after a sequence of writes. -/
def runWrites (fs : List (String × FileContent)) (ws : List (String × FileContent)) :
    List (String × FileContent) :=
  ws.foldl applyWrite fs

/-- `file.endsWith('.json')`, on the character-list representation. -/
def strEndsWith (s suffix : String) : Bool :=
  s.data.drop (s.data.length - suffix.data.length) == suffix.data

/-- The filename filter of `loadState` (source line 353):
`file.endsWith('.json') && file !== 'index.json'`. -/
def isBranchFileName (name : String) : Bool :=
  strEndsWith name ".json" && name != "index.json"

/-- The branches `loadState` passes to `reconstructBranch`, one per matching
file in directory order (source lines 352-364): parse the file, convert each
thought's ISO timestamp back to a `Date`, hand the branch to the manager.
A matching file whose JSON is not a branch object would throw inside the
`try` (see `loadStateModel`); it yields no call. -/
def reconstructCalls (files : List (String × FileContent)) : List ThoughtBranch :=
  files.filterMap (fun f =>
    if isBranchFileName f.1 then
      match f.2 with
      | .branchFile sb => some (rehydrateBranch sb)
      | .indexFile _ => none
    else none)

/-- Replay of `loadState`: fold the recovered branches into the manager via
`reconstructBranch`. -/
def replayLoad (st : ManagerState) (files : List (String × FileContent)) : ManagerState :=
  (reconstructCalls files).foldl reconstructBranch st

/-- `loadState` (source lines 347-370): on any I/O or parse failure inside
the `try`, the error is logged and a fresh
`Error('Failed to load persisted state')` is thrown; otherwise the recovered
branches are folded into the manager. -/
def loadStateModel (fsResult : Except String (List (String × FileContent)))
    (st : ManagerState) : Except String ManagerState :=
  match fsResult with
  | .error _ => .error "Failed to load persisted state"
  | .ok files => .ok (replayLoad st files)

/-! ## Autosave timer (`enableAutoSave`/`disableAutoSave`, source lines 372-391) -/

/-- The process-wide timer registry (`setInterval`/`clearInterval`):
registered interval ids and the id the next `setInterval` returns. -/
structure TimerSystem where
  active : List Nat
  nextId : Nat
deriving DecidableEq, Repr

/-- The persistence manager's timer-related state: the registry plus its
`autoSaveInterval` field. -/
structure PMTimerState where
  sys : TimerSystem
  autoSaveInterval : Option Nat
deriving DecidableEq, Repr

def initialTimers : PMTimerState := ⟨⟨[], 0⟩, none⟩

/-- `enableAutoSave` (source lines 372-384): clear a previously registered
interval, then register a new one. -/
def enableAutoSave (s : PMTimerState) : PMTimerState :=
  let s1 :=
    match s.autoSaveInterval with
    | some id => { s with sys := { s.sys with active := s.sys.active.erase id } }
    | none => s
  { sys := { active := s1.sys.active ++ [s1.sys.nextId], nextId := s1.sys.nextId + 1 },
    autoSaveInterval := some s1.sys.nextId }

/-- `disableAutoSave` (source lines 386-391). -/
def disableAutoSave (s : PMTimerState) : PMTimerState :=
  match s.autoSaveInterval with
  | some id => { sys := { s.sys with active := s.sys.active.erase id },
                 autoSaveInterval := none }
  | none => s

inductive TimerOp where
  | enable
  | disable
deriving DecidableEq, Repr

def runTimerOps (ops : List TimerOp) (s : PMTimerState) : PMTimerState :=
  ops.foldl (fun s op => match op with
    | .enable => enableAutoSave s
    | .disable => disableAutoSave s) s

/-- Outcome of one autosave tick (the `setInterval` callback, source lines
377-383): a failed `saveState` is caught and logged, nothing else. -/
inductive TickEvent where
  | saveOk
  | saveFailedLogged
deriving DecidableEq, Repr

/-- The autosave callback runs once per tick whatever earlier ticks did; each
tick attempts `saveState` and converts a failure into a logged event. -/
def autosaveTicks (saveResults : List (Except String Unit)) : List TickEvent :=
  saveResults.map (fun r => match r with
    | .ok _ => .saveOk
    | .error _ => .saveFailedLogged)

/-- Outcome of `runServer` (source lines 255-288). -/
inductive ServerOutcome where
  | running
  | exitedWithCode (code : Nat)
deriving DecidableEq, Repr

/-- Modelled from the spec: `BranchManager.initialize` wires the persistence
manager and replays `loadState` at startup (§1, §7); a `loadState` failure
propagates out of `initialize`. -/
def initManager (fsResult : Except String (List (String × FileContent))) :
    Except String ManagerState :=
  loadStateModel fsResult emptyManager

/-- `runServer` (source lines 255-288): any error thrown during
initialization is caught, logged, and the process exits with code 1;
otherwise the server keeps running on stdio. -/
def runServerModel (fsResult : Except String (List (String × FileContent))) :
    ServerOutcome :=
  match initManager fsResult with
  | .error _ => .exitedWithCode 1
  | .ok _ => .running

/-! ## Transport layer (`BranchingThoughtServer`, source lines 19-148) -/

/-- A navigation command payload. -/
structure Command where
  type : String
  branchId : Option String
deriving DecidableEq, Repr

/-- The tool-call input payload. The input schema declares `command` as an
object, and any object is truthy, so `if (inputData.command)` holds exactly
when the field is present. -/
structure ToolInput where
  command : Option Command
  content : Option String
  branchId : Option String
  parentBranchId : Option String
  type : Option String
  confidence : Option Rat
  keyPoints : List String
  relatedInsights : List String
  crossRefs : List CrossReference
deriving DecidableEq, Repr

def toThoughtInput (i : ToolInput) : ThoughtInput :=
  { content := i.content, branchId := i.branchId, parentBranchId := i.parentBranchId,
    type := i.type, confidence := i.confidence, keyPoints := i.keyPoints,
    relatedInsights := i.relatedInsights, crossRefs := i.crossRefs }

/-- The JSON payload inside the single text content block of a response. -/
inductive ResponseBody where
  | thoughtInfo (thoughtId branchId : String) (branchState : BranchState)
      (branchPriority : Rat) (numInsights numCrossRefs : Nat)
      (activeBranch : Option String)
  | errorInfo (message : String)
  | focusInfo (message : String) (activeBranch : String)
  | plainText (text : String)
deriving DecidableEq, Repr

/-- A tool response: its content payload plus the `isError` flag
(`handleCommand` never sets `isError`, so a command failure carries
`isError = false`; only `processThought`'s own catch sets it). -/
structure Response where
  body : ResponseBody
  isError : Bool
deriving DecidableEq, Repr

/-- One call into the Branch Manager, recorded for the instrumented
transport functions. -/
inductive CoreCall where
  | addThoughtCall
  | getBranchCall (id : String)
  | getAllBranchesCall
  | getActiveBranchCall
  | setActiveBranchCall (id : String)
  | getBranchHistoryCall (id : String)
  | formatBranchStatusCall
deriving DecidableEq, Repr

/-- JavaScript string truthiness for an optional field: `undefined` and the
empty string are falsy. -/
def falsyToNone (o : Option String) : Option String :=
  match o with
  | some s => if s = "" then none else some s
  | none => none

/-- `chalk.green`, the ANSI color wrapper used for the active-branch
marker. -/
def chalkGreen (s : String) : String := "\x1b[32m" ++ s ++ "\x1b[39m"

/-- Take the first `n` characters, as `String.prototype.slice(0, n)`. -/
def strTake (s : String) (n : Nat) : String := String.mk (s.data.take n)

/-- One line of the `list` command output (source lines 82-86): active
marker, id, state, and the last thought's first 50 characters (an empty
branch interpolates `undefined`). -/
def listLine (activeId : Option String) (b : ThoughtBranch) : String :=
  (if activeId = some b.id then chalkGreen "→" else " ") ++ " " ++ b.id ++
    " [" ++ stateLabel b.state ++ "] - " ++
    (match b.thoughts.getLast? with
     | some t => strTake t.content 50
     | none => "undefined") ++ "..."

/-- `handleCommand` (source lines 76-147), instrumented with the list of
calls it makes into the Branch Manager. Every failure inside its `try` is
caught and converted to a `{error, status: 'failed'}` payload without the
`isError` flag. -/
def handleCommand (st : ManagerState) (cmd : Command) :
    Response × ManagerState × List CoreCall :=
  if cmd.type = "list" then
    let branches := getAllBranches st
    let activeId := (getActiveBranch st).map (·.id)
    let output := String.intercalate "\n" (branches.map (listLine activeId))
    (⟨.plainText ("Current Branches:\n" ++ output), false⟩, st,
      [.getAllBranchesCall, .getActiveBranchCall])
  else if cmd.type = "focus" then
    match falsyToNone cmd.branchId with
    | none => (⟨.errorInfo "branchId required for focus command", false⟩, st, [])
    | some id =>
      match setActiveBranch st id with
      | .error m => (⟨.errorInfo m, false⟩, st, [.setActiveBranchCall id])
      | .ok st' =>
        (⟨.focusInfo ("Now focused on branch: " ++ id) id, false⟩, st',
          [.setActiveBranchCall id, .getBranchCall id, .formatBranchStatusCall])
  else if cmd.type = "history" then
    match falsyToNone cmd.branchId with
    | some id =>
      (match getBranchHistory st id with
       | .error m => (⟨.errorInfo m, false⟩, st, [.getBranchCall id, .getBranchHistoryCall id])
       | .ok h => (⟨.plainText h, false⟩, st, [.getBranchCall id, .getBranchHistoryCall id]))
    | none =>
      match (getActiveBranch st).map (·.id) with
      | none =>
        (⟨.errorInfo "No active branch and no branchId provided", false⟩, st,
          [.getActiveBranchCall])
      | some id =>
        (match getBranchHistory st id with
         | .error m =>
           (⟨.errorInfo m, false⟩, st,
             [.getActiveBranchCall, .getBranchCall id, .getBranchHistoryCall id])
         | .ok h =>
           (⟨.plainText h, false⟩, st,
             [.getActiveBranchCall, .getBranchCall id, .getBranchHistoryCall id]))
  else (⟨.errorInfo ("Unknown command: " ++ cmd.type), false⟩, st, [])

/-- The message of the TypeError raised if `getBranch` returned `undefined`
right after a successful `addThought` (the non-null assertion on source line
42 does not check at runtime); the outer catch would turn it into an error
payload. -/
def undefinedBranchMessage : String := "Cannot read properties of undefined"

/-- `processThought` (source lines 30-74), instrumented with the list of
calls it makes into the Branch Manager: dispatch to `handleCommand` when a
`command` field is present, otherwise run `addThought` and report the
resulting branch status; every thrown error becomes a
`{error, status: 'failed'}` payload with `isError: true`. -/
def processThought (cfg : CoreConfig) (now : Nat) (st : ManagerState) (input : ToolInput) :
    Response × ManagerState × List CoreCall :=
  match input.command with
  | some cmd => handleCommand st cmd
  | none =>
    match addThought cfg now st (toThoughtInput input) with
    | .error m => (⟨.errorInfo m, true⟩, st, [.addThoughtCall])
    | .ok (t, st') =>
      match getBranch st' t.branchId with
      | none =>
        (⟨.errorInfo undefinedBranchMessage, true⟩, st',
          [.addThoughtCall, .getBranchCall t.branchId])
      | some b =>
        (⟨.thoughtInfo t.id t.branchId b.state b.priority b.insights.length
            b.crossRefs.length ((getActiveBranch st').map (·.id)), false⟩, st',
          [.addThoughtCall, .getBranchCall t.branchId, .formatBranchStatusCall,
            .getActiveBranchCall])

/-! ## Interleaved saves (the event-loop model for `saveState`) -/

/-- A request-driven mutation that can run while `saveState` awaits I/O;
appending a thought to an existing branch is the representative case. -/
inductive Mutation where
  | appendThought (branchId : String) (t : Thought)
deriving DecidableEq, Repr

def applyMutation (st : ManagerState) (mu : Mutation) : ManagerState :=
  match mu with
  | .appendThought bid t =>
    { st with branches := st.branches.map (fun e =>
        if e.1 = bid then (e.1, { e.2 with thoughts := e.2.thoughts ++ [t] }) else e) }

def applyMutations (st : ManagerState) (ms : List Mutation) : ManagerState :=
  ms.foldl applyMutation st

/-- The write loop of `saveState` under interleaving: the captured array
holds references (here: ids) into the live heap; each branch is serialized
from the heap as it is at that iteration, and the mutations of `env.head`
run while that file write is awaited. -/
def saveLoop : List String → List (List Mutation) → ManagerState →
    List (String × FileContent) × ManagerState
  | [], _, st => ([], st)
  | id :: rest, env, st =>
    let w :=
      match getBranch st id with
      | some b => [(id ++ ".json", FileContent.branchFile (serializeBranch b))]
      | none => []
    let st' := applyMutations st (env.headD [])
    let r := saveLoop rest env.tail st'
    (w ++ r.1, r.2)

/-- `saveState` (source lines 321-345) under the event-loop model:
`ensureStorageDir` is awaited first (mutations `envDir` may run), then the
branch array is captured, then one file is written per branch (mutations may
run during each awaited write), then `index.json` is built by re-reading the
captured references from the now-current heap. -/
def saveStateConc (st0 : ManagerState) (envDir : List Mutation)
    (env : List (List Mutation)) (now : Nat) : List (String × FileContent) :=
  let st1 := applyMutations st0 envDir
  let ids := st1.branches.map (·.1)
  let r := saveLoop ids env st1
  r.1 ++ [("index.json", FileContent.indexFile
    (ids.filterMap (fun id => (getBranch r.2 id).map (indexEntryOf now))))]

/-! ## Helper lemmas -/

theorem string_append_cancel {a b t : String} (h : a ++ t = b ++ t) : a = b := by
  have h2 : a.data ++ t.data = b.data ++ t.data := by
    rw [← String.data_append, ← String.data_append, h]
  exact String.ext (List.append_cancel_right h2)

theorem jsonName_inj {a b : String} (h : a ++ ".json" = b ++ ".json") : a = b :=
  string_append_cancel h

theorem strEndsWith_append (s t : String) : strEndsWith (s ++ t) t = true := by
  unfold strEndsWith
  rw [String.data_append]
  have hlen : (s.data ++ t.data).length - t.data.length = s.data.length := by
    rw [List.length_append]; omega
  rw [hlen, List.drop_left]
  simp

theorem isBranchFileName_json {id : String} (h : id ≠ "index") :
    isBranchFileName (id ++ ".json") = true := by
  unfold isBranchFileName
  rw [strEndsWith_append]
  have hne : id ++ ".json" ≠ "index.json" := by
    intro hc
    exact h (jsonName_inj (hc.trans (by decide : ("index.json" : String) = "index" ++ ".json")))
  simp [hne]

/-- In a list with unique keys that agree with the stored branch ids, a
branch id determines the entry. -/
theorem entry_unique : ∀ (l : List (String × ThoughtBranch)),
    (l.map (·.1)).Nodup → (∀ e ∈ l, e.1 = e.2.id) →
    ∀ e1 ∈ l, ∀ e2 ∈ l, e1.2.id = e2.2.id → e1.2 = e2.2 := by
  intro l
  induction l with
  | nil => intro _ _ e1 h1; cases h1
  | cons x rest ih =>
    intro hnodup hkeys e1 h1 e2 h2 hid
    simp only [List.map_cons, List.nodup_cons] at hnodup
    have hkey12 : e1.1 = e2.1 := by
      rw [hkeys e1 h1, hkeys e2 h2, hid]
    rcases List.mem_cons.mp h1 with rfl | h1r
    · rcases List.mem_cons.mp h2 with rfl | h2r
      · rfl
      · exact absurd (hkey12 ▸ List.mem_map_of_mem (·.1) h2r) hnodup.1
    · rcases List.mem_cons.mp h2 with rfl | h2r
      · exact absurd (hkey12 ▸ List.mem_map_of_mem (·.1) h1r) hnodup.1
      · exact ih hnodup.2 (fun e he => hkeys e (List.mem_cons_of_mem _ he)) e1 h1r e2 h2r hid

/-- With unique keys agreeing with the branch ids, a branch value in
`getAllBranches` is determined by its id. -/
theorem wf_value_unique {st : ManagerState} (hwf : ManagerWF st)
    {b1 b2 : ThoughtBranch} (h1 : b1 ∈ getAllBranches st) (h2 : b2 ∈ getAllBranches st)
    (hid : b1.id = b2.id) : b1 = b2 := by
  rcases hwf with ⟨hnodup, hkeys⟩
  unfold getAllBranches at h1 h2
  rcases List.mem_map.mp h1 with ⟨e1, he1, rfl⟩
  rcases List.mem_map.mp h2 with ⟨e2, he2, rfl⟩
  exact entry_unique st.branches hnodup hkeys e1 he1 e2 he2 hid

theorem find_entry : ∀ (l : List (String × ThoughtBranch)),
    (l.map (·.1)).Nodup → ∀ e ∈ l, l.find? (fun x => x.1 == e.1) = some e := by
  intro l
  induction l with
  | nil => intro _ e he; cases he
  | cons x rest ih =>
    intro hnodup e he
    simp only [List.map_cons, List.nodup_cons] at hnodup
    rcases List.mem_cons.mp he with rfl | hr
    · exact List.find?_cons_of_pos _ (by simp)
    · have hne : x.1 ≠ e.1 := by
        intro hc
        exact hnodup.1 (hc ▸ List.mem_map_of_mem (·.1) hr)
      rw [List.find?_cons_of_neg _ (by simp [hne])]
      exact ih hnodup.2 e hr

/-- Lookup in a well-formed map finds the entry. -/
theorem getBranch_mem {st : ManagerState} (hwf : ManagerWF st)
    {e : String × ThoughtBranch} (he : e ∈ st.branches) : getBranch st e.1 = some e.2 := by
  unfold getBranch
  rw [find_entry st.branches hwf.1 e he]
  rfl

/-! ## Claims -/

/-- Strengthened invariant for the timer registry: the registered intervals
are exactly the manager's remembered handle. -/
def TimerInv (s : PMTimerState) : Prop := s.sys.active = s.autoSaveInterval.toList

theorem enableAutoSave_inv (s : PMTimerState) (h : TimerInv s) :
    TimerInv (enableAutoSave s) := by
  unfold TimerInv at h ⊢
  unfold enableAutoSave
  cases hA : s.autoSaveInterval with
  | none =>
    rw [hA] at h
    simp only [Option.toList] at h
    simp [h]
  | some id =>
    rw [hA] at h
    simp only [Option.toList] at h
    simp [h, List.erase_cons_head]

theorem disableAutoSave_inv (s : PMTimerState) (h : TimerInv s) :
    TimerInv (disableAutoSave s) := by
  unfold TimerInv at h ⊢
  unfold disableAutoSave
  cases hA : s.autoSaveInterval with
  | none =>
    rw [hA] at h ⊢
    simpa using h
  | some id =>
    rw [hA] at h
    simp only [Option.toList] at h
    simp [h, List.erase_cons_head]

theorem runTimerOps_inv (ops : List TimerOp) :
    ∀ s, TimerInv s → TimerInv (runTimerOps ops s) := by
  induction ops with
  | nil => intro s h; exact h
  | cons op rest ih =>
    intro s h
    cases op with
    | enable => exact ih _ (enableAutoSave_inv s h)
    | disable => exact ih _ (disableAutoSave_inv s h)

/-- C10: after any sequence of `enableAutoSave` and `disableAutoSave` calls,
at most one autosave timer is registered: `enableAutoSave` clears any
previously registered interval before scheduling a new one, and
`disableAutoSave` clears it. -/
theorem C10_single_timer (ops : List TimerOp) :
    ((runTimerOps ops initialTimers).sys.active).length ≤ 1 := by
  have h := runTimerOps_inv ops initialTimers (by unfold TimerInv initialTimers; rfl)
  unfold TimerInv at h
  rw [h]
  cases (runTimerOps ops initialTimers).autoSaveInterval <;> simp [Option.toList]

/-- C3: a persistence I/O failure during `loadState` at startup is fatal —
`loadState` rethrows `'Failed to load persisted state'` and `runServer`
exits the process with code 1 — whereas a `saveState` failure during an
autosave tick is caught and logged, the process keeps running, and the next
tick attempts the save again (one attempt per tick). -/
theorem C3_persistence_error_policy :
    (∀ e st, loadStateModel (.error e) st = .error "Failed to load persisted state") ∧
    (∀ e, runServerModel (.error e) = .exitedWithCode 1) ∧
    (∀ files, runServerModel (.ok files) = .running) ∧
    (∀ e rest, autosaveTicks (.error e :: rest) = .saveFailedLogged :: autosaveTicks rest) ∧
    (∀ results, (autosaveTicks results).length = results.length) := by
  refine ⟨fun e st => rfl, fun e => rfl, fun files => rfl, fun e rest => rfl, fun results => ?_⟩
  unfold autosaveTicks
  exact List.length_map results _

/-- C2: every core failure — `addThought` validation, `setActiveBranch` on an
unknown branch, `getBranchHistory`, a malformed `focus`, or an unknown
command — surfaces from `processThought` as a structured `{error, status:
'failed'}` response carrying the thrown message; the transport model is a
total function, so no exception escapes to the caller. -/
theorem C2_failure_responses (cfg : CoreConfig) (now : Nat) (st : ManagerState)
    (input : ToolInput) :
    (∀ m, input.command = none →
      addThought cfg now st (toThoughtInput input) = .error m →
      processThought cfg now st input = (⟨.errorInfo m, true⟩, st, [.addThoughtCall])) ∧
    (∀ cmd, input.command = some cmd → cmd.type = "focus" →
      falsyToNone cmd.branchId = none →
      (processThought cfg now st input).1 =
        ⟨.errorInfo "branchId required for focus command", false⟩) ∧
    (∀ cmd id m, input.command = some cmd → cmd.type = "focus" →
      falsyToNone cmd.branchId = some id → setActiveBranch st id = .error m →
      (processThought cfg now st input).1 = ⟨.errorInfo m, false⟩) ∧
    (∀ cmd id m, input.command = some cmd → cmd.type = "history" →
      falsyToNone cmd.branchId = some id → getBranchHistory st id = .error m →
      (processThought cfg now st input).1 = ⟨.errorInfo m, false⟩) ∧
    (∀ cmd, input.command = some cmd → cmd.type ≠ "list" → cmd.type ≠ "focus" →
      cmd.type ≠ "history" →
      (processThought cfg now st input).1 =
        ⟨.errorInfo ("Unknown command: " ++ cmd.type), false⟩) := by
  refine ⟨?_, ?_, ?_, ?_, ?_⟩
  · intro m hc ha
    simp [processThought, hc, ha]
  · intro cmd hc h1 h2
    simp [processThought, hc, handleCommand, h1, h2]
  · intro cmd id m hc h1 h2 hsab
    simp [processThought, hc, handleCommand, h1, h2, hsab]
  · intro cmd id m hc h1 h2 hgh
    simp [processThought, hc, handleCommand, h1, h2, hgh]
  · intro cmd hc hne1 hne2 hne3
    simp [processThought, hc, handleCommand, hne1, hne2, hne3]

/-- A configuration with trivial tunables, used to instantiate witnesses. -/
def cfg0 : CoreConfig := ⟨fun _ => 0, fun b => b.state⟩

/-- A tool call with no payload fields at all. -/
def noInput : ToolInput := ⟨none, none, none, none, none, none, [], [], []⟩

/-- A tool call carrying only `{command: {type: 'list'}}`. -/
def listInput : ToolInput := ⟨some ⟨"list", none⟩, none, none, none, none, none, [], [], []⟩

/-- Witness for C2: the empty payload fails `addThought` validation and
`processThought` returns the structured failure response. -/
theorem C2_witness :
    processThought cfg0 0 emptyManager noInput =
      (⟨.errorInfo "content and type are required", true⟩, emptyManager,
        [.addThoughtCall]) :=
  (C2_failure_responses cfg0 0 emptyManager noInput).1 "content and type are required" rfl rfl

theorem addThoughtCall_not_in_handleCommand (st : ManagerState) (cmd : Command) :
    CoreCall.addThoughtCall ∉ (handleCommand st cmd).2.2 := by
  unfold handleCommand
  split_ifs with hl hf hh
  · simp
  · cases falsyToNone cmd.branchId with
    | none => simp
    | some id => cases hx : setActiveBranch st id <;> simp [hx]
  · cases falsyToNone cmd.branchId with
    | some id => cases hx : getBranchHistory st id <;> simp [hx]
    | none =>
      cases (getActiveBranch st).map (·.id) with
      | none => simp
      | some id => cases hx : getBranchHistory st id <;> simp [hx]
  · simp

/-- C8: a payload carrying a `command` field is dispatched to
`handleCommand`, and `addThought` is never invoked — even when `content` and
`type` are present in the same payload. -/
theorem C8_command_dispatch (cfg : CoreConfig) (now : Nat) (st : ManagerState)
    (input : ToolInput) (cmd : Command) (h : input.command = some cmd) :
    processThought cfg now st input = handleCommand st cmd ∧
    CoreCall.addThoughtCall ∉ (processThought cfg now st input).2.2 := by
  have h1 : processThought cfg now st input = handleCommand st cmd := by
    simp [processThought, h]
  refine ⟨h1, ?_⟩
  rw [h1]
  exact addThoughtCall_not_in_handleCommand st cmd

/-- Witness for C8: a `list` command payload goes to `handleCommand` and no
`addThought` call is recorded. -/
theorem C8_witness :
    processThought cfg0 0 emptyManager listInput =
      handleCommand emptyManager ⟨"list", none⟩ ∧
    CoreCall.addThoughtCall ∉ (processThought cfg0 0 emptyManager listInput).2.2 :=
  C8_command_dispatch cfg0 0 emptyManager listInput ⟨"list", none⟩ rfl

/-- C9 counterexample: on `{command: {type: 'history'}}` with no active
branch, the code does invoke a core operation — `getActiveBranch` — before
failing, so "no core operation is invoked" is false as stated. -/
theorem C9_counterexample :
    handleCommand emptyManager ⟨"history", none⟩ =
      (⟨.errorInfo "No active branch and no branchId provided", false⟩, emptyManager,
        [.getActiveBranchCall]) ∧
    (handleCommand emptyManager ⟨"history", none⟩).2.2 ≠ [] := by
  constructor
  · rfl
  · decide

/-- C9 (amended): a `history` command without a usable `branchId` consults
`getActiveBranch`; with an active branch, `getBranchHistory` is invoked on
that branch's id; with none, the command returns the structured failure
`'No active branch and no branchId provided'` and no core operation beyond
the `getActiveBranch` lookup is invoked. -/
theorem C9_history_amended (st : ManagerState) (cmd : Command)
    (h1 : cmd.type = "history") (h2 : falsyToNone cmd.branchId = none) :
    (∀ b, getActiveBranch st = some b →
      handleCommand st cmd =
        ((match getBranchHistory st b.id with
          | .error m => ⟨.errorInfo m, false⟩
          | .ok htext => ⟨.plainText htext, false⟩), st,
          [.getActiveBranchCall, .getBranchCall b.id, .getBranchHistoryCall b.id])) ∧
    (getActiveBranch st = none →
      handleCommand st cmd =
        (⟨.errorInfo "No active branch and no branchId provided", false⟩, st,
          [.getActiveBranchCall])) := by
  constructor
  · intro b hb
    simp only [handleCommand, h1, h2, hb]
    norm_num
    cases getBranchHistory st b.id <;> simp
  · intro hb
    simp [handleCommand, h1, h2, hb]

/-- Witness for C9 (amended): the no-active-branch case at a concrete
state. -/
theorem C9_witness :
    handleCommand emptyManager ⟨"history", none⟩ =
      (⟨.errorInfo "No active branch and no branchId provided", false⟩, emptyManager,
        [.getActiveBranchCall]) :=
  (C9_history_amended emptyManager ⟨"history", none⟩ rfl rfl).2 rfl

/-- A one-thought demonstration branch with the given priority. -/
def demoThought1 : Thought :=
  { id := "t1", branchId := "b1", parentBranchId := none,
    content := "Investigate latency spike", type := "hypothesis",
    confidence := 1, keyPoints := [], relatedInsights := [], crossRefs := [],
    timestamp := 0 }

def demoBranch (p : Rat) : ThoughtBranch :=
  { id := "b1", parentBranchId := none, thoughts := [demoThought1],
    insights := [], crossRefs := [], state := .active, priority := p }

def mgrWithPriority (p : Rat) : ManagerState := ⟨[("b1", demoBranch p)], some "b1", 1, 1⟩

/-- C7 counterexample: two states identical except for the branch's priority
produce the same `list` output, so the `list` command does not report
priority (it shows the branch state and a thought excerpt instead). -/
theorem C7_counterexample :
    (demoBranch (mkRat 7 10)).priority ≠ (demoBranch (mkRat 1 10)).priority ∧
    (handleCommand (mgrWithPriority (mkRat 7 10)) ⟨"list", none⟩).1 =
      (handleCommand (mgrWithPriority (mkRat 1 10)) ⟨"list", none⟩).1 := by
  constructor
  · decide
  · rfl

/-- C7 (amended): the `list` command reports, for every recorded branch, its
existence (the id), its state, an excerpt of its latest thought, and whether
it is the active branch (the green arrow marker); priority is not part of
the output. -/
theorem C7_list_amended (st : ManagerState) (cmd : Command) (h : cmd.type = "list") :
    (handleCommand st cmd).1 =
      ⟨.plainText ("Current Branches:\n" ++ String.intercalate "\n"
        ((getAllBranches st).map (listLine ((getActiveBranch st).map (·.id))))), false⟩ ∧
    (∀ b ∈ getAllBranches st,
      ((getActiveBranch st).map (·.id) = some b.id →
        listLine ((getActiveBranch st).map (·.id)) b =
          chalkGreen "→" ++ " " ++ b.id ++ " [" ++ stateLabel b.state ++ "] - " ++
            (match b.thoughts.getLast? with
             | some t => strTake t.content 50
             | none => "undefined") ++ "...") ∧
      ((getActiveBranch st).map (·.id) ≠ some b.id →
        listLine ((getActiveBranch st).map (·.id)) b =
          " " ++ " " ++ b.id ++ " [" ++ stateLabel b.state ++ "] - " ++
            (match b.thoughts.getLast? with
             | some t => strTake t.content 50
             | none => "undefined") ++ "...")) := by
  constructor
  · simp [handleCommand, h]
  · intro b _
    constructor
    · intro ha
      simp [listLine, ha]
    · intro ha
      simp [listLine, ha]

/-- Witness for C7 (amended): the `list` response at a concrete state. -/
theorem C7_witness :
    (handleCommand (mgrWithPriority 1) ⟨"list", none⟩).1 =
      ⟨.plainText ("Current Branches:\n" ++ String.intercalate "\n"
        ((getAllBranches (mgrWithPriority 1)).map
          (listLine ((getActiveBranch (mgrWithPriority 1)).map (·.id))))), false⟩ :=
  (C7_list_amended (mgrWithPriority 1) ⟨"list", none⟩ rfl).1

/-- C5: the persistence collaborator reads branch data for a snapshot only
through `getAllBranches` — two manager states with the same `getAllBranches`
view produce identical `saveState` writes — and `loadState` calls
`reconstructBranch` exactly once per stored branch `.json` file (the index
file excluded). -/
theorem C5_snapshot_and_reload :
    (∀ st1 st2 now, getAllBranches st1 = getAllBranches st2 →
      saveStateWrites st1 now = saveStateWrites st2 now) ∧
    (∀ files : List (String × FileContent),
      (∀ f ∈ files, isBranchFileName f.1 = true →
        ∃ sb, f.2 = FileContent.branchFile sb) →
      (reconstructCalls files).length =
        (files.filter (fun f => isBranchFileName f.1)).length) := by
  constructor
  · intro st1 st2 now h
    unfold saveStateWrites
    rw [h]
  · intro files
    induction files with
    | nil => intro _; rfl
    | cons f rest ih =>
      intro h
      have hrest := fun g hg => h g (List.mem_cons_of_mem _ hg)
      by_cases hb : isBranchFileName f.1 = true
      · obtain ⟨sb, hsb⟩ := h f (List.mem_cons_self _ _) hb
        simp only [reconstructCalls, List.filterMap_cons, hb, hsb, List.filter_cons,
          if_true, List.length_cons]
        exact congrArg (· + 1) (ih hrest)
      · have hb' : isBranchFileName f.1 = false := by simpa using hb
        simp only [reconstructCalls, List.filterMap_cons, hb', List.filter_cons,
          Bool.false_eq_true, if_false]
        exact ih hrest

def demoSB : SerializedBranch := serializeBranch (demoBranch 1)

def demoFiles : List (String × FileContent) :=
  [("b1.json", .branchFile demoSB), ("index.json", .indexFile [])]

def mgrA : ManagerState := ⟨[("b1", demoBranch 1)], none, 0, 0⟩

def mgrB : ManagerState := ⟨[("b1", demoBranch 1)], some "b1", 5, 7⟩

/-- Witness for C5: two states differing outside the branch map save
identically, and a two-file directory (one branch file, one index) yields
exactly one `reconstructBranch` call. -/
theorem C5_witness :
    saveStateWrites mgrA 0 = saveStateWrites mgrB 0 ∧
    (reconstructCalls demoFiles).length =
      (demoFiles.filter (fun f => isBranchFileName f.1)).length := by
  constructor
  · exact C5_snapshot_and_reload.1 mgrA mgrB 0 rfl
  · refine C5_snapshot_and_reload.2 demoFiles ?_
    intro f hf hb
    rcases List.mem_cons.mp hf with rfl | hf2
    · exact ⟨demoSB, rfl⟩
    · rcases List.mem_cons.mp hf2 with rfl | hf3
      · exact absurd hb (by decide)
      · cases hf3

theorem jsonName_beq (a b : String) : (a ++ ".json" == b ++ ".json") = (a == b) := by
  by_cases h : a = b
  · simp [h]
  · have hne : a ++ ".json" ≠ b ++ ".json" := fun hc => h (jsonName_inj hc)
    simp [h, hne]

/-- A duplicate-free list whose members all equal `b`, with `b` a member, is
the singleton `[b]`. -/
theorem nodup_all_eq_singleton {α : Type} {l : List α} {b : α} (hnd : l.Nodup)
    (hall : ∀ x ∈ l, x = b) (hmem : b ∈ l) : l = [b] := by
  cases l with
  | nil => cases hmem
  | cons x rest =>
    have hx : x = b := hall x (List.mem_cons_self _ _)
    subst hx
    cases rest with
    | nil => rfl
    | cons y tail =>
      exfalso
      have hy : y = x := hall y (by simp)
      simp only [List.nodup_cons] at hnd
      exact hnd.1 (by rw [hy]; exact List.mem_cons_self x tail)

theorem values_nodup {st : ManagerState} (hwf : ManagerWF st) :
    (getAllBranches st).Nodup := by
  rcases hwf with ⟨hnodup, hkeys⟩
  have hmap : st.branches.map (·.1) = (getAllBranches st).map (·.id) := by
    unfold getAllBranches
    rw [List.map_map]
    exact List.map_congr_left hkeys
  rw [hmap] at hnodup
  exact List.Nodup.of_map _ hnodup

/-- C4: `saveState` writes exactly one file per branch containing the full
serialized branch, plus a separate `index.json` whose entry for a branch
with at least one thought is exactly
`{id, state, priority, thoughtCount, lastUpdated}` with `thoughtCount` the
length of the thought sequence and `lastUpdated` the most recent thought's
timestamp (for an empty branch the code falls back to the save time). -/
theorem C4_save_layout (st : ManagerState) (now : Nat) (hwf : ManagerWF st) :
    saveStateWrites st now =
      (getAllBranches st).map (fun b => (b.id ++ ".json",
        FileContent.branchFile (serializeBranch b)))
        ++ [("index.json",
          FileContent.indexFile ((getAllBranches st).map (indexEntryOf now)))] ∧
    (∀ b ∈ getAllBranches st,
      ((saveStateWrites st now).countP (fun w =>
        w.1 == b.id ++ ".json" && (match w.2 with
          | FileContent.branchFile _ => true
          | FileContent.indexFile _ => false))) = 1) ∧
    (∀ b ∈ getAllBranches st, ∀ t, b.thoughts.getLast? = some t →
      indexEntryOf now b =
        ⟨b.id, b.state, b.priority, b.thoughts.length, toISOString t.timestamp⟩) ∧
    (∀ b ∈ getAllBranches st,
      (b.id ++ ".json", FileContent.branchFile (serializeBranch b)) ∈
        saveStateWrites st now) := by
  refine ⟨rfl, ?_, ?_, ?_⟩
  · intro b hb
    unfold saveStateWrites
    rw [List.countP_append, List.countP_map]
    have hidx : List.countP (fun w => w.1 == b.id ++ ".json" && (match w.2 with
        | FileContent.branchFile _ => true
        | FileContent.indexFile _ => false))
        [("index.json", FileContent.indexFile ((getAllBranches st).map (indexEntryOf now)))]
        = 0 := by
      simp [List.countP_cons]
    rw [hidx]
    have hcong : List.countP ((fun w => w.1 == b.id ++ ".json" && (match w.2 with
        | FileContent.branchFile _ => true
        | FileContent.indexFile _ => false)) ∘ (fun b' => (b'.id ++ ".json",
          FileContent.branchFile (serializeBranch b')))) (getAllBranches st) =
        List.countP (fun b' => b'.id == b.id) (getAllBranches st) := by
      refine List.countP_congr ?_
      intro b' _
      simp only [Function.comp_apply, Bool.and_true]
      rw [jsonName_beq]
    rw [hcong, List.countP_eq_length_filter]
    have hfilter : (getAllBranches st).filter (fun b' => b'.id == b.id) = [b] := by
      refine nodup_all_eq_singleton (List.Nodup.filter _ (values_nodup hwf)) ?_ ?_
      · intro x hx
        rcases List.mem_filter.mp hx with ⟨hxm, hxe⟩
        exact wf_value_unique hwf hxm hb (by simpa using hxe)
      · exact List.mem_filter.mpr ⟨hb, by simp⟩
    rw [hfilter]
    rfl
  · intro b _ t ht
    unfold indexEntryOf
    rw [ht]
  · intro b hb
    unfold saveStateWrites
    exact List.mem_append_left _ (List.mem_map_of_mem _ hb)

def demoMgr : ManagerState := ⟨[("b1", demoBranch 1)], some "b1", 1, 1⟩

/-- Witness for C4: the save layout at a concrete one-branch state. -/
theorem C4_witness :
    saveStateWrites demoMgr 0 =
      (getAllBranches demoMgr).map (fun b => (b.id ++ ".json",
        FileContent.branchFile (serializeBranch b)))
        ++ [("index.json",
          FileContent.indexFile ((getAllBranches demoMgr).map (indexEntryOf 0)))] ∧
    indexEntryOf 0 (demoBranch 1) =
      ⟨"b1", .active, 1, 1, toISOString demoThought1.timestamp⟩ := by
  have h := C4_save_layout demoMgr 0 (by constructor <;> decide)
  refine ⟨h.1, ?_⟩
  have h3 := h.2.2.1 (demoBranch 1) (by decide) demoThought1 rfl
  exact h3

def demoThought2 : Thought :=
  { id := "t2", branchId := "b1", parentBranchId := none,
    content := "GC pause is root cause", type := "analysis",
    confidence := 1, keyPoints := [], relatedInsights := [], crossRefs := [],
    timestamp := 1000 }

/-- C6 counterexample: `saveState` holds live references and serializes each
branch at write time, so a thought appended to `b1` during the awaited write
of `b1.json` yields an output that no synchronous snapshot produces: the
branch file still has one thought while the index entry reports
`thoughtCount = 2` with the new thought's timestamp — the save observed a
branch mutated mid-write. -/
theorem C6_counterexample :
    saveStateConc demoMgr [] [[Mutation.appendThought "b1" demoThought2]] 0 ≠
      saveStateWrites demoMgr 0 ∧
    saveStateConc demoMgr [] [[Mutation.appendThought "b1" demoThought2]] 0 =
      [("b1.json", .branchFile (serializeBranch (demoBranch 1))),
       ("index.json", .indexFile
         [⟨"b1", .active, 1, 2, toISOString demoThought2.timestamp⟩])] ∧
    (serializeBranch (demoBranch 1)).thoughts.length = 1 := by
  refine ⟨by decide, by decide, by decide⟩

theorem saveLoop_no_mut : ∀ (ids : List String) (env : List (List Mutation))
    (st : ManagerState), (∀ e ∈ env, e = []) →
    saveLoop ids env st =
      (ids.filterMap (fun id => (getBranch st id).map
        (fun b => (id ++ ".json", FileContent.branchFile (serializeBranch b)))), st) := by
  intro ids
  induction ids with
  | nil => intro env st _; rfl
  | cons id rest ih =>
    intro env st henv
    unfold saveLoop
    have hhead : env.headD [] = [] := by
      cases env with
      | nil => rfl
      | cons e es => exact henv e (List.mem_cons_self _ _)
    have htail : ∀ e ∈ env.tail, e = [] := by
      intro e he
      cases env with
      | nil => cases he
      | cons x es => exact henv e (List.mem_cons_of_mem _ he)
    dsimp only
    rw [hhead]
    have happ : applyMutations st [] = st := rfl
    rw [happ, ih env.tail st htail]
    cases hgb : getBranch st id with
    | none => simp [hgb, List.filterMap_cons]
    | some b => simp [hgb, List.filterMap_cons]

theorem filterMap_keys {α : Type} (st : ManagerState) (f : String → ThoughtBranch → α) :
    ∀ (l : List (String × ThoughtBranch)), (∀ e ∈ l, getBranch st e.1 = some e.2) →
    (l.map (·.1)).filterMap (fun id => (getBranch st id).map (f id)) =
      l.map (fun e => f e.1 e.2) := by
  intro l
  induction l with
  | nil => intro _; rfl
  | cons e rest ih =>
    intro h
    simp only [List.map_cons, List.filterMap_cons, h e (List.mem_cons_self _ _),
      Option.map_some']
    rw [ih (fun g hg => h g (List.mem_cons_of_mem _ hg))]

/-- C6 (amended): `saveState` captures only the branch array before the
writes; branch values are serialized from the live references at write time,
so a request-driven mutation interleaved with the awaited writes can be
observed mid-save (see the counterexample); when no mutation interleaves,
the concurrent execution coincides with the synchronous snapshot. -/
theorem C6_snapshot_amended (st : ManagerState) (now : Nat) (hwf : ManagerWF st)
    (env : List (List Mutation)) (henv : ∀ e ∈ env, e = []) :
    saveStateConc st [] env now = saveStateWrites st now := by
  unfold saveStateConc
  dsimp only
  have happ : applyMutations st [] = st := rfl
  rw [happ, saveLoop_no_mut (st.branches.map (·.1)) env st henv]
  simp only
  rw [filterMap_keys st _ st.branches (fun e he => getBranch_mem hwf he),
    filterMap_keys st _ st.branches (fun e he => getBranch_mem hwf he)]
  unfold saveStateWrites getAllBranches
  dsimp only
  rw [List.map_map, List.map_map]
  have hbr : st.branches.map (fun e => (e.1 ++ ".json",
      FileContent.branchFile (serializeBranch e.2))) =
      st.branches.map ((fun b => (b.id ++ ".json",
        FileContent.branchFile (serializeBranch b))) ∘ (fun x => x.2)) := by
    refine List.map_congr_left ?_
    intro e he
    have hk := hwf.2 e he
    simp only [Function.comp_apply]
    rw [hk]
  rw [hbr]
  rfl

/-- Witness for C6 (amended): a quiescent save at a concrete state equals
the synchronous snapshot. -/
theorem C6_witness :
    saveStateConc demoMgr [] [[], []] 0 = saveStateWrites demoMgr 0 := by
  refine C6_snapshot_amended demoMgr 0 (by constructor <;> decide) [[], []] ?_
  intro e he
  rcases List.mem_cons.mp he with rfl | he2
  · rfl
  · rcases List.mem_cons.mp he2 with rfl | he3
    · rfl
    · cases he3

theorem mem_applyWrite_of_mem {fs : List (String × FileContent)}
    {e : String × FileContent} (he : e ∈ fs) (w : String × FileContent)
    (hn : e.1 = w.1 → e.2 = w.2) : e ∈ applyWrite fs w := by
  unfold applyWrite
  by_cases hc : (fs.any (fun x => x.1 == w.1)) = true
  · rw [if_pos hc]
    refine List.mem_map.mpr ⟨e, he, ?_⟩
    by_cases hx : e.1 = w.1
    · rw [if_pos hx]
      have h2 := hn hx
      rw [← h2]
    · rw [if_neg hx]
  · rw [if_neg hc]
    exact List.mem_append_left _ he

theorem mem_applyWrite_self (fs : List (String × FileContent))
    (w : String × FileContent) : w ∈ applyWrite fs w := by
  unfold applyWrite
  by_cases hc : (fs.any (fun x => x.1 == w.1)) = true
  · rw [if_pos hc]
    rw [List.any_eq_true] at hc
    obtain ⟨e, he, heq⟩ := hc
    rw [beq_iff_eq] at heq
    refine List.mem_map.mpr ⟨e, he, ?_⟩
    rw [if_pos heq, heq]
  · rw [if_neg hc]
    exact List.mem_append_right _ (List.mem_cons_self _ _)

theorem mem_applyWrite_elim {fs : List (String × FileContent)}
    {w e : String × FileContent} (h : e ∈ applyWrite fs w) : e ∈ fs ∨ e = w := by
  unfold applyWrite at h
  by_cases hc : (fs.any (fun x => x.1 == w.1)) = true
  · rw [if_pos hc] at h
    obtain ⟨x, hx, hxe⟩ := List.mem_map.mp h
    by_cases hxw : x.1 = w.1
    · right
      rw [if_pos hxw] at hxe
      rw [← hxe, hxw]
    · left
      rw [if_neg hxw] at hxe
      rwa [← hxe]
  · rw [if_neg hc] at h
    rcases List.mem_append.mp h with h1 | h2
    · exact Or.inl h1
    · exact Or.inr (by simpa using h2)

theorem mem_runWrites_of : ∀ (ws fs : List (String × FileContent))
    (e : String × FileContent), (e ∈ fs ∨ e ∈ ws) →
    (∀ w ∈ ws, w.1 = e.1 → w.2 = e.2) → e ∈ runWrites fs ws := by
  intro ws
  induction ws with
  | nil =>
    intro fs e he _
    rcases he with h | h
    · exact h
    · cases h
  | cons w rest ih =>
    intro fs e he hall
    unfold runWrites
    rw [List.foldl_cons]
    have step : e ∈ applyWrite fs w ∨ e ∈ rest := by
      rcases he with hfs | hws
      · exact Or.inl (mem_applyWrite_of_mem hfs w
          (fun hn => (hall w (List.mem_cons_self _ _) hn.symm).symm))
      · rcases List.mem_cons.mp hws with rfl | hrest
        · exact Or.inl (mem_applyWrite_self fs e)
        · exact Or.inr hrest
    exact ih (applyWrite fs w) e step (fun x hx => hall x (List.mem_cons_of_mem _ hx))

theorem mem_runWrites_src : ∀ (ws fs : List (String × FileContent))
    (e : String × FileContent), e ∈ runWrites fs ws → e ∈ fs ∨ e ∈ ws := by
  intro ws
  induction ws with
  | nil => intro fs e h; exact Or.inl h
  | cons w rest ih =>
    intro fs e h
    unfold runWrites at h
    rw [List.foldl_cons] at h
    rcases ih (applyWrite fs w) e h with h1 | h2
    · rcases mem_applyWrite_elim h1 with h3 | h4
      · exact Or.inl h3
      · exact Or.inr (by rw [h4]; exact List.mem_cons_self _ _)
    · exact Or.inr (List.mem_cons_of_mem _ h2)

theorem getBranch_reconstruct_other {st : ManagerState} {b : ThoughtBranch}
    {id : String} (hne : b.id ≠ id) :
    getBranch (reconstructBranch st b) id = getBranch st id := by
  unfold reconstructBranch
  cases hgb : getBranch st b.id with
  | none =>
    unfold getBranch
    simp only
    rw [List.find?_append]
    rw [List.find?_cons_of_neg _ (by simp [hne])]
    cases hfind : st.branches.find? (fun e => e.1 == id) with
    | some e => rfl
    | none => rfl
  | some ex =>
    dsimp only
    by_cases hlen : ex.thoughts.length < b.thoughts.length
    · rw [if_pos hlen]
      unfold getBranch
      simp only
      rw [List.find?_map]
      have hpg : ((fun (e : String × ThoughtBranch) => e.1 == id) ∘
          (fun e => if e.1 = b.id then (b.id, b) else e)) =
          (fun (e : String × ThoughtBranch) => e.1 == id) := by
        funext e
        by_cases hx : e.1 = b.id
        · simp [Function.comp_apply, hx]
        · simp [Function.comp_apply, hx]
      rw [hpg]
      cases hfind : st.branches.find? (fun e => e.1 == id) with
      | none => rfl
      | some e =>
        have hpe := List.find?_some hfind
        rw [beq_iff_eq] at hpe
        have heg : (if e.1 = b.id then (b.id, b) else e) = e :=
          if_neg (by rw [hpe]; exact fun hc => hne hc.symm)
        simp [heg]
    · rw [if_neg hlen]

theorem getBranch_reconstruct_self {st : ManagerState} {b : ThoughtBranch}
    (h : getBranch st b.id = none) :
    getBranch (reconstructBranch st b) b.id = some b := by
  unfold reconstructBranch
  rw [h]
  unfold getBranch at h ⊢
  simp only
  have hfind : st.branches.find? (fun e => e.1 == b.id) = none := by
    cases hf : st.branches.find? (fun e => e.1 == b.id) with
    | none => rfl
    | some e => rw [hf] at h; cases h
  rw [List.find?_append, hfind]
  rw [List.find?_cons_of_pos _ (by simp)]
  rfl

theorem getBranch_reconstruct_keep {st : ManagerState} {b y : ThoughtBranch}
    (h : getBranch st b.id = some b) (hy : y.id = b.id → y = b) :
    getBranch (reconstructBranch st y) b.id = some b := by
  by_cases hid : y.id = b.id
  · have hyb := hy hid
    subst hyb
    unfold reconstructBranch
    rw [h]
    dsimp only
    rw [if_neg (lt_irrefl _)]
    exact h
  · rw [getBranch_reconstruct_other hid]
    exact h

theorem fold_reconstruct_keep : ∀ (bs : List ThoughtBranch) (st : ManagerState)
    (b : ThoughtBranch), getBranch st b.id = some b →
    (∀ y ∈ bs, y.id = b.id → y = b) →
    getBranch (bs.foldl reconstructBranch st) b.id = some b := by
  intro bs
  induction bs with
  | nil => intro st b h _; exact h
  | cons y rest ih =>
    intro st b h hall
    rw [List.foldl_cons]
    exact ih _ b (getBranch_reconstruct_keep h (hall y (List.mem_cons_self _ _)))
      (fun z hz => hall z (List.mem_cons_of_mem _ hz))

theorem fold_reconstruct_mem : ∀ (bs : List ThoughtBranch) (st : ManagerState)
    (b : ThoughtBranch), b ∈ bs → (∀ y ∈ bs, y.id = b.id → y = b) →
    (getBranch st b.id = none ∨ getBranch st b.id = some b) →
    getBranch (bs.foldl reconstructBranch st) b.id = some b := by
  intro bs
  induction bs with
  | nil => intro st b h _ _; cases h
  | cons y rest ih =>
    intro st b hmem hall hpre
    rw [List.foldl_cons]
    rcases List.mem_cons.mp hmem with rfl | hrest
    · have hstep : getBranch (reconstructBranch st b) b.id = some b := by
        rcases hpre with h0 | h1
        · exact getBranch_reconstruct_self h0
        · exact getBranch_reconstruct_keep h1 (fun _ => rfl)
      exact fold_reconstruct_keep rest _ b hstep
        (fun z hz => hall z (List.mem_cons_of_mem _ hz))
    · have hstep : getBranch (reconstructBranch st y) b.id = none ∨
          getBranch (reconstructBranch st y) b.id = some b := by
        by_cases hid : y.id = b.id
        · have hyb := hall y (List.mem_cons_self _ _) hid
          subst hyb
          rcases hpre with h0 | h1
          · exact Or.inr (getBranch_reconstruct_self h0)
          · exact Or.inr (getBranch_reconstruct_keep h1 (fun _ => rfl))
        · rw [getBranch_reconstruct_other hid]
          exact hpre
      exact ih _ b hrest (fun z hz => hall z (List.mem_cons_of_mem _ hz)) hstep

theorem getBranch_some_mem {st : ManagerState} {id : String} {b : ThoughtBranch}
    (h : getBranch st id = some b) : b ∈ getAllBranches st := by
  unfold getBranch at h
  cases hf : st.branches.find? (fun e => e.1 == id) with
  | none => rw [hf] at h; cases h
  | some e =>
    rw [hf] at h
    have he := List.mem_of_find?_eq_some hf
    have he2 : e.2 = b := by simpa using h
    rw [← he2]
    exact List.mem_map_of_mem _ he

def indexBranch : ThoughtBranch :=
  { id := "index", parentBranchId := none, thoughts := [demoThought1],
    insights := [], crossRefs := [], state := .active, priority := 1 }

def indexMgr : ManagerState := ⟨[("index", indexBranch)], some "index", 1, 1⟩

/-- C1 counterexample: a branch named `index` is stored at `index.json`,
which `saveState`'s own index write then overwrites and `loadState` skips,
so the branch is lost entirely: reloading a saved state holding exactly this
one (non-empty) branch yields no branch at all, refuting the round-trip law
as stated for every branch. -/
theorem C1_counterexample :
    getAllBranches indexMgr = [indexBranch] ∧
    indexBranch.thoughts ≠ [] ∧
    getAllBranches (replayLoad emptyManager
      (runWrites [] (saveStateWrites indexMgr 0))) = [] := by
  refine ⟨rfl, by decide, by decide⟩

/-- C1 (amended): for every branch whose id is not `index` (whose storage
file `saveState`'s index write would overwrite), saving with `saveState` and
reloading with `loadState` yields a branch identical in every modelled field
— thought order, insight set, cross-reference list, state, and priority —
with each thought's timestamp serialized as an ISO-8601 string on disk and
rehydrated to the original native date value on load. -/
theorem C1_roundtrip_amended (st : ManagerState) (now : Nat) (hwf : ManagerWF st)
    (b : ThoughtBranch) (hb : b ∈ getAllBranches st) (hid : b.id ≠ "index")
    (hts : ∀ t ∈ b.thoughts, t.timestamp < isoBound) :
    (b.id ++ ".json", FileContent.branchFile (serializeBranch b)) ∈
      runWrites [] (saveStateWrites st now) ∧
    (∀ t ∈ b.thoughts, (serializeThought t).timestamp = toISOString t.timestamp ∧
      parseISOString (toISOString t.timestamp) = some t.timestamp) ∧
    b ∈ getAllBranches (replayLoad emptyManager
      (runWrites [] (saveStateWrites st now))) := by
  have hwmem : (b.id ++ ".json", FileContent.branchFile (serializeBranch b)) ∈
      saveStateWrites st now := by
    unfold saveStateWrites
    exact List.mem_append_left _ (List.mem_map_of_mem _ hb)
  have huniq : ∀ w ∈ saveStateWrites st now,
      w.1 = b.id ++ ".json" → w.2 = FileContent.branchFile (serializeBranch b) := by
    intro w hw hname
    unfold saveStateWrites at hw
    rcases List.mem_append.mp hw with hmap | hidx
    · obtain ⟨b', hb', rfl⟩ := List.mem_map.mp hmap
      simp only at hname ⊢
      rw [wf_value_unique hwf hb' hb (jsonName_inj hname)]
    · rcases List.mem_singleton.mp hidx with rfl
      simp only at hname
      exact absurd (jsonName_inj
        ((by decide : ("index.json" : String) = "index" ++ ".json") ▸ hname)).symm hid
  have hfs : (b.id ++ ".json", FileContent.branchFile (serializeBranch b)) ∈
      runWrites [] (saveStateWrites st now) :=
    mem_runWrites_of _ [] _ (Or.inr hwmem) huniq
  have hbf := isBranchFileName_json hid
  have hcallmem : b ∈ reconstructCalls (runWrites [] (saveStateWrites st now)) := by
    refine List.mem_filterMap.mpr
      ⟨(b.id ++ ".json", FileContent.branchFile (serializeBranch b)), hfs, ?_⟩
    simp only [hbf, if_true]
    rw [rehydrateBranch_serializeBranch b hts]
  have hcalluniq : ∀ y ∈ reconstructCalls (runWrites [] (saveStateWrites st now)),
      y.id = b.id → y = b := by
    intro y hy hyid
    obtain ⟨f, hf, hfy⟩ := List.mem_filterMap.mp hy
    rcases mem_runWrites_src _ [] f hf with h0 | h1
    · cases h0
    · unfold saveStateWrites at h1
      rcases List.mem_append.mp h1 with hmap | hidx
      · obtain ⟨b', hb', rfl⟩ := List.mem_map.mp hmap
        cases hbi : isBranchFileName (b'.id ++ ".json") with
        | false => simp [hbi] at hfy
        | true =>
          simp only [hbi, if_true] at hfy
          rw [Option.some_inj] at hfy
          have hidb : b'.id = b.id := by rw [← hfy] at hyid; exact hyid
          have hb'b : b' = b := wf_value_unique hwf hb' hb hidb
          rw [← hfy, hb'b, rehydrateBranch_serializeBranch b hts]
      · rcases List.mem_singleton.mp hidx with rfl
        exfalso
        cases hbi : isBranchFileName "index.json" with
        | false => simp [hbi] at hfy
        | true => simp [hbi] at hfy
  have hpre : getBranch emptyManager b.id = none := rfl
  have hfinal := fold_reconstruct_mem _ emptyManager b hcallmem hcalluniq (Or.inl hpre)
  refine ⟨hfs, ?_, getBranch_some_mem hfinal⟩
  intro t ht
  exact ⟨rfl, parseISOString_toISOString t.timestamp (hts t ht)⟩

/-- Witness for C1 (amended): a concrete one-branch state round-trips. -/
theorem C1_witness :
    demoBranch 1 ∈ getAllBranches (replayLoad emptyManager
      (runWrites [] (saveStateWrites demoMgr 0))) :=
  (C1_roundtrip_amended demoMgr 0 (by constructor <;> decide) (demoBranch 1)
    (by decide) (by decide) (by decide)).2.2
